import Mathlib

/-!
Verification of the generalized-dipole notebook logic (pyiron + SPHInX).

The notebook's computational core is embedded below:
* the field-to-charge converter
    `cell = structure.cell * ANGSTROM_TO_BOHR`
    `area = np.linalg.norm(np.cross(cell[0], cell[1]))`
    `total_charge = (right_field - left_field) * area / (4 * np.pi)`
* the configuration assignments
    `initialGuess.rho.charged = {charge: total_charge, z: min(positions)}`
    `PAWHamiltonian.nExcessElectrons = -total_charge`
    `PAWHamiltonian.dipoleCorrection = True`
    `PAWHamiltonian.zField = left_field * HARTREE_TO_EV`
* the potential post-processing
    `planar_avg = v_electrostatic.get_average_along_axis(2)`
    `x = np.linspace(0, structure.cell[2][2], len(planar_avg))`
* the structure setup
    `structure.add_tag(selective_dynamics=(True, True, True))`
    `structure.selective_dynamics[range(len(structure)//2)] = (False, False, False)`

Machine floats are modelled as exact real numbers.
-/

/-- A 3-component row vector (one lattice vector, or one atomic position). -/
structure Vec3 where
  x : ℝ
  y : ℝ
  z : ℝ

/-- Scalar multiplication of a 3-vector (NumPy `c * v`, elementwise). -/
def smul3 (c : ℝ) (v : Vec3) : Vec3 :=
  ⟨c * v.x, c * v.y, c * v.z⟩

/-- `np.cross` of two 3-vectors. -/
def cross3 (u v : Vec3) : Vec3 :=
  ⟨u.y * v.z - u.z * v.y, u.z * v.x - u.x * v.z, u.x * v.y - u.y * v.x⟩

/-- `np.linalg.norm` of a 3-vector: the Euclidean norm. -/
noncomputable def norm3 (v : Vec3) : ℝ :=
  Real.sqrt (v.x ^ 2 + v.y ^ 2 + v.z ^ 2)

/-- A cell matrix: three lattice row-vectors. -/
def Cell : Type := Fin 3 → Vec3

/-- `HARTREE_TO_EV = 27.2114` from the notebook. -/
def HARTREE_TO_EV : ℝ := 27.2114

/-- `ANGSTROM_TO_BOHR = 1.8897` from the notebook. -/
def ANGSTROM_TO_BOHR : ℝ := 1.8897

/-- `cell = job.structure.cell * ANGSTROM_TO_BOHR`: elementwise scaling of the
cell matrix from Ångström to Bohr. -/
def scaleCell (C : Cell) : Cell :=
  fun i => smul3 ANGSTROM_TO_BOHR (C i)

/-- `area = np.linalg.norm(np.cross(cell[0], cell[1]))`. -/
noncomputable def area (cell : Cell) : ℝ :=
  norm3 (cross3 (cell 0) (cell 1))

/-- `total_charge = (right_field - left_field) * area / (4 * np.pi)`, where
`area` is computed from the Bohr-scaled cell. -/
noncomputable def total_charge (right_field left_field : ℝ) (C : Cell) : ℝ :=
  (right_field - left_field) * area (scaleCell C) / (4 * Real.pi)

/-- The spec's formula, written out from its words: the Euclidean norm of the
cross product of the first two scaled lattice row-vectors, times the field
difference, divided by 4π. -/
noncomputable def spec_total_charge (f_r f_l : ℝ) (C : Cell) : ℝ :=
  let u := smul3 ANGSTROM_TO_BOHR (C 0)
  let v := smul3 ANGSTROM_TO_BOHR (C 1)
  (f_r - f_l) *
    Real.sqrt ((u.y * v.z - u.z * v.y) ^ 2 + (u.z * v.x - u.x * v.z) ^ 2 +
      (u.x * v.y - u.y * v.x) ^ 2) / (4 * Real.pi)

/-- C1: the field-to-charge converter returns
`(f_r - f_l) * |cross(cell[0], cell[1])| / (4π)` on the Bohr-scaled cell,
for every pair of field scalars and every cell matrix (non-degenerate or not). -/
theorem total_charge_eq_spec_formula (f_r f_l : ℝ) (C : Cell) :
    total_charge f_r f_l C = spec_total_charge f_r f_l C := by
  rfl

/-- C6: swapping the two fields and negating both leaves the converter's
output unchanged: `total_charge (-f_l) (-f_r) C = total_charge f_r f_l C`. -/
theorem total_charge_antisymm (f_r f_l : ℝ) (C : Cell) :
    total_charge (-f_l) (-f_r) C = total_charge f_r f_l C := by
  unfold total_charge
  ring_nf

/-- The orthorhombic cell `[[a,0,0],[0,a,0],[0,0,c]]` (entries in Ångström). -/
def orthoCell (a c : ℝ) : Cell :=
  fun i => if i = 0 then ⟨a, 0, 0⟩ else if i = 1 then ⟨0, a, 0⟩ else ⟨0, 0, c⟩

lemma area_scale_ortho (a c : ℝ) :
    area (scaleCell (orthoCell a c)) = (ANGSTROM_TO_BOHR * a) ^ 2 := by
  have h : area (scaleCell (orthoCell a c)) =
      Real.sqrt (((ANGSTROM_TO_BOHR * a) ^ 2) ^ 2) := by
    simp only [area, norm3, cross3, scaleCell, smul3, orthoCell]
    norm_num
    ring_nf
  rw [h, Real.sqrt_sq (sq_nonneg _)]

lemma area_scale_ortho4 : area (scaleCell (orthoCell 4 20)) = 57.13545744 := by
  rw [area_scale_ortho]
  norm_num [ANGSTROM_TO_BOHR]

lemma total_charge_ortho4 :
    total_charge 0.05 (-0.05) (orthoCell 4 20) = 5.713545744 / (4 * Real.pi) := by
  unfold total_charge
  rw [area_scale_ortho4]
  norm_num

lemma total_charge_ortho4_bounds :
    0.4546 < total_charge 0.05 (-0.05) (orthoCell 4 20) ∧
      total_charge 0.05 (-0.05) (orthoCell 4 20) < 0.4547 := by
  have hl := Real.pi_gt_3141592
  have hu := Real.pi_lt_3141593
  have h4 : (0 : ℝ) < 4 * Real.pi := by positivity
  rw [total_charge_ortho4]
  constructor
  · rw [lt_div_iff h4]
    nlinarith
  · rw [div_lt_iff h4]
    nlinarith

/-- C2 counterexample: for `a = 4.0` the area is not approximately 57.19
(it misses by more than 1/25) and the total charge is not approximately
0.4550 (it misses by more than 1/5000). -/
theorem ortho4_constants_off :
    1 / 25 < |area (scaleCell (orthoCell 4 20)) - 57.19| ∧
      1 / 5000 < |total_charge 0.05 (-0.05) (orthoCell 4 20) - 0.4550| := by
  constructor
  · rw [area_scale_ortho4]
    rw [abs_of_neg (by norm_num)]
    norm_num
  · have h := total_charge_ortho4_bounds
    rw [abs_of_neg (by linarith [h.2])]
    linarith [h.2]

/-- C2 (amended): for the orthorhombic cell the converter yields exactly
`0.10 * (1.8897*a)^2 / (4π)`; for `a = 4.0` the scaled in-plane area is
exactly 57.13545744 Bohr² (≈ 57.14) and the total charge lies strictly
between 0.4546 and 0.4547 (≈ 0.4547). -/
theorem total_charge_ortho_value :
    (∀ a c : ℝ, total_charge 0.05 (-0.05) (orthoCell a c) =
      0.10 * (1.8897 * a) ^ 2 / (4 * Real.pi)) ∧
    area (scaleCell (orthoCell 4 20)) = 57.13545744 ∧
    0.4546 < total_charge 0.05 (-0.05) (orthoCell 4 20) ∧
    total_charge 0.05 (-0.05) (orthoCell 4 20) < 0.4547 := by
  refine ⟨fun a c => ?_, area_scale_ortho4,
    total_charge_ortho4_bounds.1, total_charge_ortho4_bounds.2⟩
  unfold total_charge
  rw [area_scale_ortho]
  norm_num [ANGSTROM_TO_BOHR]

/-- C5: the converter is a total function; on a degenerate cell whose first
two lattice vectors are collinear it returns zero charge. -/
theorem total_charge_degenerate (f_r f_l c : ℝ) (C : Cell)
    (h : C 1 = smul3 c (C 0) ∨ C 0 = smul3 c (C 1)) :
    total_charge f_r f_l C = 0 := by
  have hcross : cross3 (scaleCell C 0) (scaleCell C 1) = ⟨0, 0, 0⟩ := by
    rcases h with h | h <;>
      · rw [show scaleCell C 1 = smul3 ANGSTROM_TO_BOHR (C 1) from rfl,
          show scaleCell C 0 = smul3 ANGSTROM_TO_BOHR (C 0) from rfl, h]
        simp only [smul3, cross3, Vec3.mk.injEq]
        refine ⟨by ring, by ring, by ring⟩
  unfold total_charge area
  rw [hcross]
  simp [norm3]

/-- A concrete degenerate cell: the second lattice vector is twice the first. -/
def degCell : Cell :=
  fun i => if i = 0 then ⟨1, 2, 0⟩ else if i = 1 then smul3 2 ⟨1, 2, 0⟩ else ⟨0, 0, 9⟩

/-- C5 witness: on the concrete collinear cell the converter returns zero. -/
theorem total_charge_degenerate_witness :
    (degCell 1 = smul3 2 (degCell 0) ∨ degCell 0 = smul3 2 (degCell 1)) ∧
      total_charge 1 0 degCell = 0 :=
  ⟨Or.inl rfl, total_charge_degenerate 1 0 2 degCell (Or.inl rfl)⟩

/-- The SPHInX Hamiltonian scalars/flags the notebook assigns:
`nExcessElectrons`, `dipoleCorrection`, `zField`. -/
structure PAWHamiltonian where
  nExcessElectrons : ℝ
  dipoleCorrection : Bool
  zField : ℝ

/-- The notebook cell
`PAWHamiltonian.nExcessElectrons = -total_charge`,
`PAWHamiltonian.dipoleCorrection = True`,
`PAWHamiltonian.zField = left_field * HARTREE_TO_EV`,
as a function of the two target fields and the raw cell matrix. -/
noncomputable def setupHamiltonian (right_field left_field : ℝ) (C : Cell) :
    PAWHamiltonian :=
  { nExcessElectrons := -total_charge right_field left_field C
    dipoleCorrection := true
    zField := left_field * HARTREE_TO_EV }

/-- C4: the excess-electron count asserted on the Hamiltonian is exactly the
negation of the computed total charge. -/
theorem nExcessElectrons_eq_neg_total_charge (f_r f_l : ℝ) (C : Cell) :
    (setupHamiltonian f_r f_l C).nExcessElectrons = -total_charge f_r f_l C := by
  rfl

/-- C3 counterexample: with `right_field = -0.05` and `left_field = 0.05` the
residual field handed to the engine is `0.05 * 27.2114`, not the lower of the
two fields (`-0.05`) times `27.2114`. -/
theorem zField_not_min_field :
    (setupHamiltonian (-0.05) 0.05 degCell).zField ≠
      min (-0.05 : ℝ) 0.05 * 27.2114 := by
  simp only [setupHamiltonian, HARTREE_TO_EV]
  rw [min_eq_left (by norm_num : (-0.05 : ℝ) ≤ 0.05)]
  norm_num

/-- C3 (amended): the residual-field parameter `zField` equals the *left*
field value times the Hartree-to-eV constant 27.2114; whenever the left field
does not exceed the right field (as in the notebook, where
`left_field = -0.05 < 0.05 = right_field`) this is the lower of the two
field values times 27.2114. -/
theorem zField_eq_left_field_hartree (f_r f_l : ℝ) (C : Cell) (h : f_l ≤ f_r) :
    (setupHamiltonian f_r f_l C).zField = f_l * 27.2114 ∧
      (setupHamiltonian f_r f_l C).zField = min f_r f_l * 27.2114 := by
  constructor
  · rfl
  · rw [min_comm, min_eq_left h]
    rfl

/-- C3 witness: at the notebook's values `right_field = 0.05`,
`left_field = -0.05`, the residual field is the lower field times 27.2114. -/
theorem zField_eq_left_field_hartree_witness :
    (-0.05 : ℝ) ≤ 0.05 ∧
      ((setupHamiltonian 0.05 (-0.05) degCell).zField = -0.05 * 27.2114 ∧
        (setupHamiltonian 0.05 (-0.05) degCell).zField =
          min (0.05 : ℝ) (-0.05) * 27.2114) :=
  ⟨by norm_num, zField_eq_left_field_hartree 0.05 (-0.05) degCell (by norm_num)⟩

/-- Python's `min` over a list of reals: `None` on the empty list (where the
source would raise `ValueError`), otherwise the least element. -/
def minList : List ℝ → Option ℝ
  | [] => none
  | a :: l => some (l.foldl min a)

/-- The initial charge-density descriptor
`Group({"charge": total_charge, "z": min(positions)})`. -/
structure ChargedGroup where
  charge : ℝ
  z : ℝ

/-- The notebook cell
`positions = [p[2] for p in job.structure.positions]` followed by
`charge = Group({"charge": total_charge, "z": min(positions)})`. -/
noncomputable def setupCharge (right_field left_field : ℝ) (C : Cell)
    (positions : List Vec3) : Option ChargedGroup :=
  (minList (positions.map Vec3.z)).map
    (fun m => { charge := total_charge right_field left_field C, z := m })

lemma foldl_min_le_init (l : List ℝ) (a : ℝ) : l.foldl min a ≤ a := by
  induction l generalizing a with
  | nil => exact le_refl a
  | cons c l ih => exact (ih (min a c)).trans (min_le_left a c)

lemma foldl_min_le_mem (l : List ℝ) (a b : ℝ) (hb : b ∈ l) :
    l.foldl min a ≤ b := by
  induction l generalizing a with
  | nil => exact absurd hb (List.not_mem_nil b)
  | cons c l ih =>
    rcases List.mem_cons.mp hb with hb | hb
    · subst hb
      exact (foldl_min_le_init l (min a b)).trans (min_le_right a b)
    · exact ih (min a c) hb

lemma foldl_min_mem (l : List ℝ) (a : ℝ) : l.foldl min a ∈ l ∨ l.foldl min a = a := by
  induction l generalizing a with
  | nil => exact Or.inr rfl
  | cons c l ih =>
    rcases ih (min a c) with h | h
    · exact Or.inl (List.mem_cons_of_mem _ h)
    · rcases min_choice a c with hm | hm
      · exact Or.inr (by rw [List.foldl_cons, h, hm])
      · exact Or.inl (by rw [List.foldl_cons, h, hm]; exact List.mem_cons_self _ _)

/-- C9: for a nonempty slab, the charge descriptor handed to the engine's
initial charge density carries the computed total charge, and its `z`
coordinate is the minimum of the third components of the atomic positions
(the bottom of the slab). -/
theorem setupCharge_bottom (f_r f_l : ℝ) (C : Cell) (ps : List Vec3)
    (h : ps ≠ []) :
    ∃ m : ℝ,
      setupCharge f_r f_l C ps =
        some { charge := total_charge f_r f_l C, z := m } ∧
      (∀ p ∈ ps, m ≤ p.z) ∧ m ∈ ps.map Vec3.z := by
  cases ps with
  | nil => exact absurd rfl h
  | cons p rest =>
    refine ⟨(rest.map Vec3.z).foldl min p.z, rfl, ?_, ?_⟩
    · intro q hq
      rcases List.mem_cons.mp hq with hq | hq
      · rw [hq]
        exact foldl_min_le_init _ _
      · exact foldl_min_le_mem _ _ _ (List.mem_map_of_mem Vec3.z hq)
    · rcases foldl_min_mem (rest.map Vec3.z) p.z with hm | hm
      · exact List.mem_cons_of_mem _ hm
      · rw [List.map_cons, hm]
        exact List.mem_cons_self _ _

/-- C9 witness: a one-atom slab at height 5. -/
theorem setupCharge_bottom_witness :
    ([(⟨0, 0, 5⟩ : Vec3)] ≠ []) ∧
      ∃ m : ℝ,
        setupCharge 1 0 degCell [⟨0, 0, 5⟩] =
          some { charge := total_charge 1 0 degCell, z := m } ∧
        (∀ p ∈ [(⟨0, 0, 5⟩ : Vec3)], m ≤ p.z) ∧
        m ∈ List.map Vec3.z [(⟨0, 0, 5⟩ : Vec3)] :=
  ⟨by simp, setupCharge_bottom 1 0 degCell [⟨0, 0, 5⟩] (by simp)⟩

/-- A 3D potential sample: a numeric grid indexed by position, with extents
`n0 × n1 × n2`. -/
structure Sample3 where
  n0 : ℕ
  n1 : ℕ
  n2 : ℕ
  val : Fin n0 → Fin n1 → Fin n2 → ℝ

/-- The extent of a sample along each of the three axes. -/
def extent (s : Sample3) (ax : Fin 3) : ℕ :=
  if ax = 0 then s.n0 else if ax = 1 then s.n1 else s.n2

/-- Modelled from the spec: `get_average_along_axis` is implemented by the
external workflow library (this repository only contains its call site,
`v_electrostatic.get_average_along_axis(2)`). Per the spec it produces a
sequence of length equal to the sample's extent along the chosen axis, each
entry the mean of all values sharing that out-of-plane index. -/
noncomputable def get_average_along_axis (s : Sample3) (ax : Fin 3) : List ℝ :=
  if ax = 0 then
    (List.finRange s.n0).map
      (fun i => (∑ j : Fin s.n1, ∑ k : Fin s.n2, s.val i j k) /
        ((s.n1 : ℝ) * (s.n2 : ℝ)))
  else if ax = 1 then
    (List.finRange s.n1).map
      (fun j => (∑ i : Fin s.n0, ∑ k : Fin s.n2, s.val i j k) /
        ((s.n0 : ℝ) * (s.n2 : ℝ)))
  else
    (List.finRange s.n2).map
      (fun k => (∑ i : Fin s.n0, ∑ j : Fin s.n1, s.val i j k) /
        ((s.n0 : ℝ) * (s.n1 : ℝ)))

lemma mean_prod {m n : ℕ} (f : Fin m → Fin n → ℝ) :
    (∑ p : Fin m × Fin n, f p.1 p.2) / ((Fintype.card (Fin m × Fin n) : ℝ)) =
      (∑ j : Fin m, ∑ k : Fin n, f j k) / ((m : ℝ) * (n : ℝ)) := by
  rw [Fintype.sum_prod_type]
  simp [Fintype.card_prod]

/-- C7: for every sample and every axis the averaged sequence has length
exactly the sample's extent along that axis, and along each axis every entry
is the arithmetic mean (sum divided by count) of all sample values sharing
that out-of-plane index. -/
theorem get_average_along_axis_length_mean (s : Sample3) :
    (∀ ax : Fin 3, (get_average_along_axis s ax).length = extent s ax) ∧
    get_average_along_axis s 0 = (List.finRange s.n0).map
      (fun i => (∑ p : Fin s.n1 × Fin s.n2, s.val i p.1 p.2) /
        ((Fintype.card (Fin s.n1 × Fin s.n2) : ℝ))) ∧
    get_average_along_axis s 1 = (List.finRange s.n1).map
      (fun j => (∑ p : Fin s.n0 × Fin s.n2, s.val p.1 j p.2) /
        ((Fintype.card (Fin s.n0 × Fin s.n2) : ℝ))) ∧
    get_average_along_axis s 2 = (List.finRange s.n2).map
      (fun k => (∑ p : Fin s.n0 × Fin s.n1, s.val p.1 p.2 k) /
        ((Fintype.card (Fin s.n0 × Fin s.n1) : ℝ))) := by
  refine ⟨?_, ?_, ?_, ?_⟩
  · intro ax
    fin_cases ax <;> simp [get_average_along_axis, extent]
  · rw [get_average_along_axis, if_pos rfl]
    exact List.map_congr_left (fun i _ => (mean_prod (fun j k => s.val i j k)).symm)
  · rw [get_average_along_axis, if_neg (by decide), if_pos rfl]
    exact List.map_congr_left (fun j _ => (mean_prod (fun i k => s.val i j k)).symm)
  · rw [get_average_along_axis, if_neg (by decide), if_neg (by decide)]
    exact List.map_congr_left (fun k _ => (mean_prod (fun i j => s.val i j k)).symm)

/-- `np.linspace(a, b, n)`: `n` evenly spaced values from `a` to `b`
inclusive (for `n ≥ 2`; a single point is `a`, zero points is empty). -/
noncomputable def linspace (a b : ℝ) (n : ℕ) : List ℝ :=
  if n ≤ 1 then List.replicate n a
  else (List.range n).map (fun i : ℕ => a + (b - a) * (i : ℝ) / ((n : ℝ) - 1))

/-- `x = np.linspace(0, job.structure.cell[2][2], len(planar_avg))`: the
companion coordinate axis, built from the `[2][2]` entry (the third component
of the third lattice row-vector). -/
noncomputable def xAxis (C : Cell) (n : ℕ) : List ℝ :=
  linspace 0 ((C 2).z) n

lemma linspace_length (a b : ℝ) (n : ℕ) : (linspace a b n).length = n := by
  unfold linspace
  split
  · rw [List.length_replicate]
  · simp

/-- A cell whose third lattice vector is tilted off the z axis. -/
def tiltCell : Cell :=
  fun i => if i = 0 then ⟨1, 0, 0⟩ else if i = 1 then ⟨0, 1, 0⟩ else ⟨0, 3, 4⟩

lemma norm3_tilt : norm3 (tiltCell 2) = 5 := by
  show norm3 ⟨0, 3, 4⟩ = 5
  unfold norm3
  rw [show ((0 : ℝ) ^ 2 + 3 ^ 2 + 4 ^ 2) = 5 ^ 2 by norm_num]
  exact Real.sqrt_sq (by norm_num)

/-- C8 counterexample: on a cell whose third lattice vector is `(0,3,4)` the
code's coordinate axis ends at `4` (the `[2][2]` entry), not at the vector's
Euclidean norm `5`. -/
theorem xAxis_ne_norm_partition :
    xAxis tiltCell 2 ≠ linspace 0 (norm3 (tiltCell 2)) 2 := by
  have h1 : xAxis tiltCell 2 = [0, 4] := by
    show linspace 0 (4 : ℝ) 2 = [0, 4]
    unfold linspace
    rw [if_neg (by norm_num), show List.range 2 = [0, 1] from rfl]
    norm_num
  have h2 : linspace 0 (norm3 (tiltCell 2)) 2 = [0, 5] := by
    rw [norm3_tilt]
    unfold linspace
    rw [if_neg (by norm_num), show List.range 2 = [0, 1] from rfl]
    norm_num
  rw [h1, h2]
  intro h
  rw [List.cons.injEq, List.cons.injEq] at h
  exact absurd h.2.1 (by norm_num)

/-- C8 (amended): the companion coordinate axis has exactly as many points as
the averaged sequence, and is the uniform partition of `[0, cell[2][2]]`, the
*third component* of the out-of-plane lattice vector; when that vector has no
in-plane components (as for the notebook's slab cell) this coincides with the
uniform partition of `[0, cell_length]` with `cell_length` the vector's
Euclidean norm. -/
theorem xAxis_uniform_partition (C : Cell) (n : ℕ)
    (hx : (C 2).x = 0) (hy : (C 2).y = 0) (hz : 0 ≤ (C 2).z) :
    (xAxis C n).length = n ∧
      xAxis C n = linspace 0 ((C 2).z) n ∧
      xAxis C n = linspace 0 (norm3 (C 2)) n := by
  have hn : norm3 (C 2) = (C 2).z := by
    unfold norm3
    rw [hx, hy, show ((0 : ℝ) ^ 2 + 0 ^ 2 + (C 2).z ^ 2) = (C 2).z ^ 2 by ring]
    exact Real.sqrt_sq hz
  exact ⟨linspace_length _ _ _, rfl, by rw [hn]; rfl⟩

/-- A cell whose third lattice vector points along z (as for the slab). -/
def zCell : Cell :=
  fun i => if i = 0 then ⟨1, 0, 0⟩ else if i = 1 then ⟨0, 1, 0⟩ else ⟨0, 0, 4⟩

/-- C8 witness: for the z-aligned cell with 3 sample points the coordinate
axis is the uniform 3-point partition of `[0, norm of third vector]`. -/
theorem xAxis_uniform_partition_witness :
    ((zCell 2).x = 0 ∧ (zCell 2).y = 0 ∧ 0 ≤ (zCell 2).z) ∧
      ((xAxis zCell 3).length = 3 ∧
        xAxis zCell 3 = linspace 0 ((zCell 2).z) 3 ∧
        xAxis zCell 3 = linspace 0 (norm3 (zCell 2)) 3) :=
  ⟨⟨rfl, rfl, by show (0:ℝ) ≤ 4; norm_num⟩,
    xAxis_uniform_partition zCell 3 rfl rfl (by show (0:ℝ) ≤ 4; norm_num)⟩

/-- One atom of the slab structure: its position and its per-atom
motion-freedom flags (`selective_dynamics`). -/
structure Atom where
  position : Vec3
  selective_dynamics : Bool × Bool × Bool

/-- `job.structure.add_tag(selective_dynamics=(True, True, True))`: every
atom initially gets the flags `(True, True, True)`. -/
def addTag (ps : List Vec3) : List Atom :=
  ps.map (fun p => { position := p, selective_dynamics := (true, true, true) })

/-- `structure.selective_dynamics[range(len(structure)//2)] = (False, False,
False)`: walking the atom list with a running index, entries whose index is
below `m` get their flags overwritten. -/
def setFlags (i m : ℕ) : List Atom → List Atom
  | [] => []
  | a :: rest =>
    (if i < m then { a with selective_dynamics := (false, false, false) } else a)
      :: setFlags (i + 1) m rest

/-- The freezing step: overwrite the flags of the first `len // 2` atoms. -/
def freezeBottom (l : List Atom) : List Atom :=
  setFlags 0 (l.length / 2) l

lemma setFlags_length (l : List Atom) (i m : ℕ) :
    (setFlags i m l).length = l.length := by
  induction l generalizing i with
  | nil => rfl
  | cons a rest ih => simp [setFlags, ih]

lemma setFlags_get (l : List Atom) (i m j : ℕ) (hj : j < l.length) :
    (setFlags i m l).get ⟨j, by rw [setFlags_length]; exact hj⟩ =
      if i + j < m then
        { l.get ⟨j, hj⟩ with selective_dynamics := (false, false, false) }
      else l.get ⟨j, hj⟩ := by
  induction l generalizing i j with
  | nil => exact absurd hj (Nat.not_lt_zero j)
  | cons a rest ih =>
    cases j with
    | zero => simp [setFlags]
    | succ j =>
      have hj' : j < rest.length := Nat.lt_of_succ_lt_succ hj
      have := ih (i + 1) j hj'
      simp only [setFlags, List.get_cons_succ]
      rw [this, show i + 1 + j = i + (j + 1) from by omega]

/-- C10: after structure setup, the atom list keeps its length, exactly the
atoms with index below `len // 2` carry flags `(False, False, False)`, every
remaining atom keeps `(True, True, True)`, and every atom's position (its
only other attribute) is unchanged. -/
theorem freezeBottom_bottom_half (ps : List Vec3) (i : ℕ) (hi : i < ps.length) :
    (freezeBottom (addTag ps)).length = ps.length ∧
      (freezeBottom (addTag ps)).get ⟨i, by
          unfold freezeBottom
          rw [setFlags_length]
          unfold addTag
          rw [List.length_map]
          exact hi⟩ =
        { position := ps.get ⟨i, hi⟩,
          selective_dynamics :=
            if i < ps.length / 2 then (false, false, false)
            else (true, true, true) } := by
  have hmap : (addTag ps).length = ps.length := by
    unfold addTag
    rw [List.length_map]
  have hlen : (freezeBottom (addTag ps)).length = ps.length := by
    unfold freezeBottom
    rw [setFlags_length, hmap]
  refine ⟨hlen, ?_⟩
  have hi' : i < (addTag ps).length := by rw [hmap]; exact hi
  have hget : (addTag ps).get ⟨i, hi'⟩ =
      { position := ps.get ⟨i, hi⟩, selective_dynamics := (true, true, true) } := by
    unfold addTag
    rw [List.get_map]
  have h := setFlags_get (addTag ps) 0 ((addTag ps).length / 2) i hi'
  rw [Nat.zero_add, hget] at h
  show (setFlags 0 ((addTag ps).length / 2) (addTag ps)).get
      ⟨i, by rw [setFlags_length]; exact hi'⟩ =
    { position := ps.get ⟨i, hi⟩,
      selective_dynamics :=
        if i < ps.length / 2 then (false, false, false) else (true, true, true) }
  rw [h, hmap]
  by_cases hc : i < ps.length / 2
  · rw [if_pos hc, if_pos hc]
  · rw [if_neg hc, if_neg hc]

/-- Three stacked atoms, the witness slab for the freezing step. -/
def slab3 : List Vec3 := [⟨0, 0, 0⟩, ⟨0, 0, 1⟩, ⟨0, 0, 2⟩]

/-- C10 witness: on a three-atom slab, atom 0 (bottom half, `3 // 2 = 1`) is
frozen and keeps its position. -/
theorem freezeBottom_bottom_half_witness :
    0 < slab3.length ∧
      ((freezeBottom (addTag slab3)).length = slab3.length ∧
        (freezeBottom (addTag slab3)).get ⟨0, by
            unfold freezeBottom
            rw [setFlags_length]
            unfold addTag
            rw [List.length_map]
            exact by norm_num [slab3]⟩ =
          { position := slab3.get ⟨0, by norm_num [slab3]⟩,
            selective_dynamics :=
              if 0 < slab3.length / 2 then (false, false, false)
              else (true, true, true) }) :=
  ⟨by norm_num [slab3], freezeBottom_bottom_half slab3 0 (by norm_num [slab3])⟩
